import Mathlib

/-!
Verification of `ijm2py.py`, a line-oriented converter from ImageJ/Fiji
macro scripts (`.ijm`) to Fiji Jython scripts (`.py`).

Strings are embedded as `List Char`.  Python's whitespace notions
(`str.isspace`, `str.strip`, the `\s` regex class, word characters for the
`\b` regex boundary) are modelled at their ASCII fragment, which covers the
whole character repertoire the program's claims are about.
-/

namespace Ijm2Py

/-- ASCII fragment of Python's `str.isspace` (also the `\s` regex class):
space, tab, newline, carriage return, vertical tab, form feed. -/
def isPySpace (c : Char) : Bool :=
  c = ' ' || c = '\t' || c = '\n' || c = '\r' || c = '\x0b' || c = '\x0c'

/-- `listStartsWith pat s` holds when `pat` is an initial segment of `s`
(Python's `str.startswith`, also used to detect a pattern occurrence for
`str.replace`). -/
def listStartsWith : List Char → List Char → Bool
  | [], _ => true
  | _ :: _, [] => false
  | p :: ps, c :: cs => p = c && listStartsWith ps cs

/-- One fuelled pass of Python's `str.replace(pat, rep)`: scan left to
right, replace each non-overlapping occurrence of `pat` by `rep`, never
rescanning the replacement text.  The fuel only serves structural
termination; `replaceAll` supplies enough fuel for the whole scan. -/
def replaceAllF : Nat → List Char → List Char → List Char → List Char
  | 0, _, _, s => s
  | _ + 1, _, _, [] => []
  | fuel + 1, pat, rep, c :: rest =>
    if pat ≠ [] ∧ listStartsWith pat (c :: rest) = true then
      rep ++ replaceAllF fuel pat rep ((c :: rest).drop pat.length)
    else
      c :: replaceAllF fuel pat rep rest

/-- Python's `s.replace(pat, rep)` on character lists. -/
def replaceAll (pat rep s : List Char) : List Char :=
  replaceAllF s.length pat rep s

/-- `_unescape_ijm_string`: four sequential `str.replace` passes, in source
order: backslash-backslash to backslash, then backslash-quote to quote,
then backslash-n to newline, then backslash-t to tab. -/
def unescape_ijm_string (s : List Char) : List Char :=
  replaceAll ['\\', 't'] ['\t']
    (replaceAll ['\\', 'n'] ['\n']
      (replaceAll ['\\', '"'] ['"']
        (replaceAll ['\\', '\\'] ['\\'] s)))

/-- `_escape_py_string_fragment`: backslash to double backslash, then
quote to backslash-quote. -/
def escape_py_string_fragment (s : List Char) : List Char :=
  replaceAll ['"'] ['\\', '"']
    (replaceAll ['\\'] ['\\', '\\'] s)

example : unescape_ijm_string ['\\', '\\', 'n'] = ['\n'] := by decide
example : escape_py_string_fragment ['\\', 'a'] = ['\\', '\\', 'a'] := by decide

/-- If the first character of the pattern never occurs in `s`, a
`str.replace` pass leaves `s` unchanged (for any fuel). -/
theorem replaceAllF_of_head_not_mem (fuel : Nat) (p0 : Char) (ps rep s : List Char)
    (h : p0 ∉ s) : replaceAllF fuel (p0 :: ps) rep s = s := by
  induction fuel generalizing s with
  | zero => rfl
  | succ fuel ih =>
    cases s with
    | nil => rfl
    | cons c rest =>
      have hne : p0 ≠ c := fun he => h (he ▸ List.mem_cons_self c rest)
      have hpre : listStartsWith (p0 :: ps) (c :: rest) = false := by
        simp [listStartsWith, hne]
      rw [replaceAllF]
      rw [if_neg (by simp [hpre])]
      have : p0 ∉ rest := fun hm => h (List.mem_cons_of_mem c hm)
      rw [ih rest this]

theorem replaceAll_of_head_not_mem (p0 : Char) (ps rep s : List Char)
    (h : p0 ∉ s) : replaceAll (p0 :: ps) rep s = s :=
  replaceAllF_of_head_not_mem s.length p0 ps rep s h

/-- A `str.replace` pass introduces no character that occurs neither in the
input nor in the replacement text. -/
theorem not_mem_replaceAllF (fuel : Nat) (pat rep s : List Char) (x : Char)
    (hs : x ∉ s) (hr : x ∉ rep) : x ∉ replaceAllF fuel pat rep s := by
  induction fuel generalizing s with
  | zero => exact hs
  | succ fuel ih =>
    cases s with
    | nil => exact hs
    | cons c rest =>
      rw [replaceAllF]
      by_cases hpre : pat ≠ [] ∧ listStartsWith pat (c :: rest) = true
      · rw [if_pos hpre]
        intro hmem
        rcases List.mem_append.1 hmem with h1 | h1
        · exact hr h1
        · have hdrop : x ∉ replaceAllF fuel pat rep ((c :: rest).drop pat.length) :=
            ih _ (fun hm => hs (((c :: rest).drop_sublist pat.length).subset hm))
          exact hdrop h1
      · rw [if_neg hpre]
        intro hmem
        rcases List.mem_cons.1 hmem with h1 | h1
        · exact hs (h1 ▸ List.mem_cons_self c rest)
        · exact ih rest (fun hm => hs (List.mem_cons_of_mem c hm)) h1

/-- C2: the escape decoder applies its four substitutions as sequential
passes in the order backslash-backslash, backslash-quote, backslash-n,
backslash-t; on the three-character input backslash-backslash-n the first
pass yields backslash-n, which the third pass converts, so decoding
produces a single newline character and not the two characters backslash
and n. -/
theorem C2_unescape_sequential_passes :
    (∀ s : List Char,
      unescape_ijm_string s =
        replaceAll ['\\', 't'] ['\t']
          (replaceAll ['\\', 'n'] ['\n']
            (replaceAll ['\\', '"'] ['"']
              (replaceAll ['\\', '\\'] ['\\'] s))))
    ∧ replaceAll ['\\', '\\'] ['\\'] ['\\', '\\', 'n'] = ['\\', 'n']
    ∧ unescape_ijm_string ['\\', '\\', 'n'] = ['\n']
    ∧ unescape_ijm_string ['\\', '\\', 'n'] ≠ ['\\', 'n'] :=
  ⟨fun _ => rfl, by decide, by decide, by decide⟩

/-- C5: for a string containing no backslash and no double quote, decoding
followed by encoding returns the original string unchanged. -/
theorem C5_roundtrip_simple_literals (s : List Char)
    (hbs : '\\' ∉ s) (hq : '"' ∉ s) :
    escape_py_string_fragment (unescape_ijm_string s) = s := by
  have hdec : unescape_ijm_string s = s := by
    unfold unescape_ijm_string
    rw [replaceAll_of_head_not_mem '\\' _ _ s hbs,
        replaceAll_of_head_not_mem '\\' _ _ s hbs,
        replaceAll_of_head_not_mem '\\' _ _ s hbs,
        replaceAll_of_head_not_mem '\\' _ _ s hbs]
  rw [hdec]
  unfold escape_py_string_fragment
  rw [replaceAll_of_head_not_mem '\\' _ _ s hbs,
      replaceAll_of_head_not_mem '"' _ _ s hq]

/-- C5 witness at a concrete literal with no special characters. -/
theorem C5_roundtrip_simple_literals_witness :
    escape_py_string_fragment (unescape_ijm_string "sigma=2 slice".toList) =
      "sigma=2 slice".toList :=
  C5_roundtrip_simple_literals "sigma=2 slice".toList (by decide) (by decide)

/-- Python's `str.strip()` at the ASCII whitespace fragment: drop leading
whitespace, then drop trailing whitespace. -/
def trimChars (s : List Char) : List Char :=
  ((s.dropWhile isPySpace).reverse.dropWhile isPySpace).reverse

/-- Transient state of `_split_args_tokens`: collected tokens, current
buffer, and the three nesting counters. -/
structure SplitState where
  tokens : List (List Char)
  buf : List Char
  depth_square : Nat
  depth_curly : Nat
  depth_paren : Nat
deriving DecidableEq

/-- The tokenizer's local `flush()`: if the buffer is non-empty, strip it;
keep the stripped token only when it is non-empty; clear the buffer. -/
def flushSt (st : SplitState) : SplitState :=
  if st.buf = [] then st
  else if trimChars st.buf = [] then { st with buf := [] }
  else { st with tokens := st.tokens ++ [trimChars st.buf], buf := [] }

/-- The counter-update chain at the top of the tokenizer loop: a closing
bracket only decrements its counter when that counter is positive. -/
def bumpDepth (st : SplitState) (ch : Char) : SplitState :=
  if ch = '[' then { st with depth_square := st.depth_square + 1 }
  else if ch = ']' ∧ 0 < st.depth_square then
    { st with depth_square := st.depth_square - 1 }
  else if ch = '\x7b' then { st with depth_curly := st.depth_curly + 1 }
  else if ch = '\x7d' ∧ 0 < st.depth_curly then
    { st with depth_curly := st.depth_curly - 1 }
  else if ch = '(' then { st with depth_paren := st.depth_paren + 1 }
  else if ch = ')' ∧ 0 < st.depth_paren then
    { st with depth_paren := st.depth_paren - 1 }
  else st

/-- One iteration of the tokenizer's character loop: update counters, then
split on whitespace only when all three counters are zero, otherwise append
the character (bracket characters included) to the buffer. -/
def splitStep (st : SplitState) (ch : Char) : SplitState :=
  let st2 := bumpDepth st ch
  if isPySpace ch = true ∧ st2.depth_square = 0 ∧ st2.depth_curly = 0
      ∧ st2.depth_paren = 0 then
    flushSt st2
  else { st2 with buf := st2.buf ++ [ch] }

/-- `_split_args_tokens`: fold the loop over the argument string, then
flush the remaining buffer. -/
def split_args_tokens (args : List Char) : List (List Char) :=
  (flushSt (args.foldl splitStep (SplitState.mk [] [] 0 0 0))).tokens

example :
    split_args_tokens "a] b".toList = ["a]".toList, "b".toList] := by decide

/-- C3: tokenizing the bracketed-path argument string yields exactly the
two tokens `path=[D:/10 mW/subsampled]` and `flag`; moreover a whitespace
character seen while any nesting counter is positive is appended verbatim
to the current buffer and never splits it or emits a token. -/
theorem C3_bracket_atomicity :
    split_args_tokens "path=[D:/10 mW/subsampled] flag".toList =
      ["path=[D:/10 mW/subsampled]".toList, "flag".toList]
    ∧ ∀ (st : SplitState) (ch : Char), isPySpace ch = true →
        (0 < st.depth_square ∨ 0 < st.depth_curly ∨ 0 < st.depth_paren) →
        splitStep st ch = { st with buf := st.buf ++ [ch] } := by
  constructor
  · decide
  · intro st ch hws hpos
    have hnb : bumpDepth st ch = st := by
      have h1 : ch ≠ '[' := fun he => by rw [he] at hws; exact absurd hws (by decide)
      have h2 : ch ≠ ']' := fun he => by rw [he] at hws; exact absurd hws (by decide)
      have h3 : ch ≠ '\x7b' := fun he => by rw [he] at hws; exact absurd hws (by decide)
      have h4 : ch ≠ '\x7d' := fun he => by rw [he] at hws; exact absurd hws (by decide)
      have h5 : ch ≠ '(' := fun he => by rw [he] at hws; exact absurd hws (by decide)
      have h6 : ch ≠ ')' := fun he => by rw [he] at hws; exact absurd hws (by decide)
      unfold bumpDepth
      simp [h1, h2, h3, h4, h5, h6]
    have hcond : ¬ (isPySpace ch = true ∧ st.depth_square = 0
        ∧ st.depth_curly = 0 ∧ st.depth_paren = 0) := by
      rintro ⟨-, h1, h2, h3⟩
      rcases hpos with hp | hp | hp <;> omega
    unfold splitStep
    simp only [hnb]
    rw [if_neg hcond]

/-- C3 witness: a concrete whitespace character inside an open square
bracket is appended to the buffer, splitting nothing. -/
theorem C3_bracket_atomicity_witness :
    splitStep (SplitState.mk [] ['a'] 1 0 0) ' '
      = SplitState.mk [] ['a', ' '] 1 0 0 :=
  C3_bracket_atomicity.2 (SplitState.mk [] ['a'] 1 0 0) ' '
    (by decide) (Or.inl (by decide))

theorem head?_dropWhile (p : Char → Bool) (l : List Char) (c : Char)
    (h : (l.dropWhile p).head? = some c) : p c = false := by
  induction l with
  | nil => simp [List.dropWhile] at h
  | cons a l ih =>
    rw [List.dropWhile_cons] at h
    by_cases hpa : p a = true
    · rw [if_pos hpa] at h
      exact ih h
    · rw [if_neg hpa] at h
      simp at h
      rw [← h]
      exact Bool.eq_false_iff.mpr hpa

theorem getLast?_dropWhile (p : Char → Bool) (l : List Char)
    (h : l.dropWhile p ≠ []) : (l.dropWhile p).getLast? = l.getLast? := by
  induction l with
  | nil => simp [List.dropWhile] at h
  | cons a l ih =>
    rw [List.dropWhile_cons]
    by_cases hpa : p a = true
    · rw [if_pos hpa]
      rw [List.dropWhile_cons, if_pos hpa] at h
      have hlne : l ≠ [] := by
        intro he
        rw [he] at h
        simp [List.dropWhile] at h
      rcases l with _ | ⟨b, l⟩
      · exact absurd rfl hlne
      · rw [ih h, List.getLast?_cons_cons]
    · rw [if_neg hpa]

/-- A non-empty stripped string starts with a non-whitespace character. -/
theorem trimChars_head (s : List Char) (c : Char)
    (h : (trimChars s).head? = some c) : isPySpace c = false := by
  unfold trimChars at h
  rw [List.head?_reverse] at h
  have hne : (s.dropWhile isPySpace).reverse.dropWhile isPySpace ≠ [] := by
    intro he
    rw [he] at h
    simp at h
  rw [getLast?_dropWhile _ _ hne, List.getLast?_reverse] at h
  exact head?_dropWhile _ _ _ h

/-- A non-empty stripped string ends with a non-whitespace character. -/
theorem trimChars_getLast (s : List Char) (c : Char)
    (h : (trimChars s).getLast? = some c) : isPySpace c = false := by
  unfold trimChars at h
  rw [List.getLast?_reverse] at h
  exact head?_dropWhile _ _ _ h

theorem bumpDepth_tokens (st : SplitState) (ch : Char) :
    (bumpDepth st ch).tokens = st.tokens := by
  unfold bumpDepth
  split_ifs <;> rfl

theorem bumpDepth_buf (st : SplitState) (ch : Char) :
    (bumpDepth st ch).buf = st.buf := by
  unfold bumpDepth
  split_ifs <;> rfl

/-- The property C9 asserts of every emitted token. -/
def goodToken (t : List Char) : Prop :=
  t ≠ [] ∧ (∀ c, t.head? = some c → isPySpace c = false)
    ∧ (∀ c, t.getLast? = some c → isPySpace c = false)

theorem goodToken_flushSt (st : SplitState)
    (h : ∀ u ∈ st.tokens, goodToken u) :
    ∀ u ∈ (flushSt st).tokens, goodToken u := by
  unfold flushSt
  split_ifs with h1 h2
  · exact h
  · exact h
  · intro u hu
    rcases List.mem_append.1 hu with hm | hm
    · exact h u hm
    · have hut : u = trimChars st.buf := by simpa using hm
      subst hut
      exact ⟨h2, fun c hc => trimChars_head _ _ hc,
        fun c hc => trimChars_getLast _ _ hc⟩

theorem goodToken_foldl (s : List Char) :
    ∀ st : SplitState, (∀ u ∈ st.tokens, goodToken u) →
      ∀ u ∈ (s.foldl splitStep st).tokens, goodToken u := by
  induction s with
  | nil => exact fun st h => h
  | cons c s ih =>
    intro st h
    rw [List.foldl_cons]
    apply ih
    simp only [splitStep]
    split_ifs with hc
    · exact goodToken_flushSt _ (by rw [bumpDepth_tokens]; exact h)
    · intro u hu
      apply h
      simpa [bumpDepth_tokens] using hu

/-- C9: every token produced by the tokenizer is non-empty, and neither
starts nor ends with a whitespace character: tokens are stripped before
being kept and empty-after-strip tokens are discarded. -/
theorem C9_tokens_trimmed_nonempty (args t : List Char)
    (ht : t ∈ split_args_tokens args) :
    t ≠ [] ∧ (∀ c, t.head? = some c → isPySpace c = false)
    ∧ (∀ c, t.getLast? = some c → isPySpace c = false) := by
  unfold split_args_tokens at ht
  exact goodToken_flushSt _
    (goodToken_foldl args (SplitState.mk [] [] 0 0 0) (by simp)) t ht

/-- C9 witness: the token list of a concrete argument string, and the
asserted property at its first token. -/
theorem C9_tokens_trimmed_nonempty_witness :
    split_args_tokens "  a=1   b ".toList = [['a', '=', '1'], ['b']]
    ∧ (['a', '=', '1'] ≠ []
      ∧ (∀ c, (['a', '=', '1'] : List Char).head? = some c → isPySpace c = false)
      ∧ (∀ c, (['a', '=', '1'] : List Char).getLast? = some c → isPySpace c = false)) :=
  ⟨by decide, C9_tokens_trimmed_nonempty "  a=1   b ".toList ['a', '=', '1'] (by decide)⟩

/-- The literal-building loop of `_format_args_as_multiline`: token number
`idx` out of `n` is encoded, quoted, and suffixed with backslash-n-space
exactly when it is not the last one (`idx < n - 1`). -/
def formatLines (n : Nat) : Nat → List (List Char) → List (List Char)
  | _, [] => []
  | idx, t :: rest =>
    ('"' :: (escape_py_string_fragment t
        ++ (if idx < n - 1 then ['\\', 'n', ' '] else [])) ++ ['"'])
      :: formatLines n (idx + 1) rest

/-- `_format_args_as_multiline`: empty token list gives the empty-string
literal, a single literal is returned bare, several literals are joined by
newline plus indent and wrapped in parentheses. -/
def format_args_as_multiline (tokens : List (List Char)) (indent : List Char) :
    List Char :=
  if tokens = [] then ['"', '"']
  else
    let lines := formatLines tokens.length 0 tokens
    if lines.length = 1 then lines.headD []
    else '(' :: '\n' :: indent ++ ('\n' :: indent).intercalate lines ++ ['\n', ')']

theorem formatLines_append_last (n : Nat) (ts : List (List Char))
    (t : List Char) (idx : Nat) (h : idx + ts.length + 1 = n) :
    formatLines n idx (ts ++ [t]) =
      ts.map (fun tok =>
        '"' :: (escape_py_string_fragment tok ++ ['\\', 'n', ' ']) ++ ['"'])
      ++ ['"' :: escape_py_string_fragment t ++ ['"']] := by
  induction ts generalizing idx with
  | nil =>
    simp only [List.length_nil] at h
    simp only [List.nil_append, List.map_nil, formatLines]
    have hlt : ¬ idx < n - 1 := by omega
    rw [if_neg hlt]
    simp
  | cons tok ts ih =>
    have hlt : idx < n - 1 := by
      simp only [List.length_cons] at h
      omega
    have h2 : idx + 1 + ts.length + 1 = n := by
      simp only [List.length_cons] at h
      omega
    simp only [List.cons_append, formatLines, List.map_cons, if_pos hlt,
      List.append_eq]
    rw [ih (idx + 1) h2]
    simp

/-- C6: the re-emitter's three-case contract.  No tokens: the empty-string
literal.  One token: a single encoded, quoted literal.  Two or more
tokens: each token encoded and quoted, every literal but the last ending
in backslash, n, space before its closing quote, the literals joined by a
newline plus the indent string, the whole wrapped in parentheses. -/
theorem C6_reemitter_contract (indent : List Char) :
    format_args_as_multiline [] indent = ['"', '"']
    ∧ (∀ t, format_args_as_multiline [t] indent =
        '"' :: escape_py_string_fragment t ++ ['"'])
    ∧ (∀ (ts : List (List Char)) (t : List Char), ts ≠ [] →
        format_args_as_multiline (ts ++ [t]) indent =
          '(' :: '\n' :: indent
            ++ ('\n' :: indent).intercalate
                (ts.map (fun tok =>
                  '"' :: (escape_py_string_fragment tok ++ ['\\', 'n', ' '])
                    ++ ['"'])
                  ++ ['"' :: escape_py_string_fragment t ++ ['"']])
            ++ ['\n', ')']) := by
  refine ⟨rfl, fun t => ?_, fun ts t hne => ?_⟩
  · simp only [format_args_as_multiline]
    rw [if_neg (by simp)]
    simp [formatLines]
  · simp only [format_args_as_multiline]
    rw [if_neg (by simp)]
    have hlen : (ts ++ [t]).length = ts.length + 1 := by simp
    rw [hlen, formatLines_append_last (ts.length + 1) ts t 0 (by omega)]
    have hlens : (ts.map (fun tok =>
        '"' :: (escape_py_string_fragment tok ++ ['\\', 'n', ' '])
          ++ ['"'])
        ++ ['"' :: escape_py_string_fragment t ++ ['"']]).length ≠ 1 := by
      simpa using hne
    rw [if_neg hlens]

/-- C6 witness: the multi-token case evaluated at two concrete tokens. -/
theorem C6_reemitter_contract_witness :
    format_args_as_multiline [['a'], ['b']] "    ".toList =
      "(\n    \"a\\n \"\n    \"b\"\n)".toList :=
  ((C6_reemitter_contract "    ".toList).2.2 [['a']] ['b']
    (by decide)).trans (by decide)

/-- The character of `ln` at index `i` is `c`; false when the index is out
of range (the combined bounds-and-character check of `_parse_run_call`). -/
def atChar (ln : List Char) (i : Nat) (c : Char) : Bool :=
  ln[i]? == some c

/-- The scanning loop of `_read_quoted_string`, over the text that follows
the opening quote.  Returns the accumulated raw contents and the number of
characters consumed: a backslash followed by another character is consumed
as a literal pair without interpretation; an unescaped double quote stops
the scan and is consumed; end of buffer stops the scan silently. -/
def readQuotedLoopL : List Char → List Char × Nat
  | [] => ([], 0)
  | [c] => if c = '"' then ([], 1) else ([c], 1)
  | c :: c2 :: rest =>
    if c = '\\' then
      let p := readQuotedLoopL rest
      (c :: c2 :: p.1, p.2 + 2)
    else if c = '"' then ([], 1)
    else
      let p := readQuotedLoopL (c2 :: rest)
      (c :: p.1, p.2 + 1)

/-- `_read_quoted_string text i` (precondition: `text[i]` is a double
quote): raw contents between the quotes and the index just past the
closing quote, or the buffer length when the literal is unterminated. -/
def read_quoted_string (text : List Char) (i : Nat) : List Char × Nat :=
  let p := readQuotedLoopL (text.drop (i + 1))
  (p.1, i + 1 + p.2)

/-- Dichotomy for the scanning loop: it consumes at most the whole buffer,
and either it consumed everything and accumulated exactly the remaining
text (unterminated literal), or the buffer is the accumulated contents
followed by the closing quote followed by the unconsumed rest, with the
consumed count one past the contents. -/
theorem readQuotedLoopL_spec : ∀ u : List Char,
    (readQuotedLoopL u).2 ≤ u.length
    ∧ (((readQuotedLoopL u).2 = u.length ∧ (readQuotedLoopL u).1 = u)
      ∨ (u = (readQuotedLoopL u).1 ++ '"' :: u.drop (readQuotedLoopL u).2
         ∧ (readQuotedLoopL u).2 = (readQuotedLoopL u).1.length + 1))
  | [] => by simp [readQuotedLoopL]
  | [c] => by
    by_cases hc : c = '"'
    · subst hc
      refine ⟨by simp [readQuotedLoopL], Or.inr ?_⟩
      simp [readQuotedLoopL]
    · simp [readQuotedLoopL, hc]
  | c :: c2 :: rest => by
    by_cases hbs : c = '\\'
    · have ih := readQuotedLoopL_spec rest
      simp only [readQuotedLoopL, if_pos hbs]
      refine ⟨by have h0 := ih.1; simp; omega, ?_⟩
      rcases ih.2 with ⟨h1, h2⟩ | ⟨h1, h2⟩
      · exact Or.inl ⟨by simp [h1], by simp [h2]⟩
      · refine Or.inr ⟨?_, by simp [h2]⟩
        have hdrop : (c :: c2 :: rest).drop ((readQuotedLoopL rest).2 + 2)
            = rest.drop (readQuotedLoopL rest).2 := by
          rw [show (readQuotedLoopL rest).2 + 2
              = ((readQuotedLoopL rest).2 + 1) + 1 from rfl,
            List.drop_succ_cons, List.drop_succ_cons]
        simp only [hdrop]
        calc c :: c2 :: rest
            = c :: c2 :: ((readQuotedLoopL rest).1
                ++ '"' :: rest.drop (readQuotedLoopL rest).2) := by rw [← h1]
          _ = (c :: c2 :: (readQuotedLoopL rest).1)
                ++ '"' :: rest.drop (readQuotedLoopL rest).2 := by simp
    · by_cases hq : c = '"'
      · subst hq
        simp only [readQuotedLoopL, if_neg hbs, if_pos rfl]
        refine ⟨by simp, Or.inr ⟨?_, rfl⟩⟩
        simp
      · have ih := readQuotedLoopL_spec (c2 :: rest)
        simp only [readQuotedLoopL, if_neg hbs, if_neg hq]
        refine ⟨by have h0 := ih.1; simp only [List.length_cons] at h0 ⊢; omega, ?_⟩
        rcases ih.2 with ⟨h1, h2⟩ | ⟨h1, h2⟩
        · exact Or.inl ⟨by simp [h1], by simp [h2]⟩
        · refine Or.inr ⟨?_, by simp [h2]⟩
          have hdrop : (c :: c2 :: rest).drop ((readQuotedLoopL (c2 :: rest)).2 + 1)
              = (c2 :: rest).drop (readQuotedLoopL (c2 :: rest)).2 := by
            rw [List.drop_succ_cons]
          simp only [hdrop]
          calc c :: c2 :: rest
              = c :: ((readQuotedLoopL (c2 :: rest)).1
                  ++ '"' :: (c2 :: rest).drop (readQuotedLoopL (c2 :: rest)).2) := by
                rw [← h1]
            _ = (c :: (readQuotedLoopL (c2 :: rest)).1)
                  ++ '"' :: (c2 :: rest).drop (readQuotedLoopL (c2 :: rest)).2 := by
                simp

/-- C8: the string-literal scanner, started at an index holding a double
quote, never fails: either no unescaped closing quote follows and it
returns the accumulated partial contents together with an index equal to
the buffer length, or it returns the raw contents between the quotes
(escape pairs unevaluated, as a verbatim segment of the buffer) and the
index immediately after the closing quote, which sits at index one less. -/
theorem C8_scanner_total_dichotomy (text : List Char) (i : Nat)
    (h : atChar text i '"' = true) :
    (read_quoted_string text i).2 ≤ text.length
    ∧ (((read_quoted_string text i).2 = text.length
        ∧ (read_quoted_string text i).1 = text.drop (i + 1))
      ∨ (text.drop (i + 1) =
          (read_quoted_string text i).1
            ++ '"' :: text.drop (read_quoted_string text i).2
        ∧ (read_quoted_string text i).2
            = i + 1 + (read_quoted_string text i).1.length + 1
        ∧ atChar text ((read_quoted_string text i).2 - 1) '"' = true)) := by
  have hi : i < text.length := by
    have h' : text[i]? = some '"' := by simpa [atChar] using h
    rcases List.getElem?_eq_some.1 h' with ⟨h1, -⟩
    exact h1
  have hspec := readQuotedLoopL_spec (text.drop (i + 1))
  have hulen : (text.drop (i + 1)).length = text.length - (i + 1) := by simp
  simp only [read_quoted_string]
  constructor
  · have h1 := hspec.1
    rw [hulen] at h1
    omega
  · rcases hspec.2 with ⟨h1, h2⟩ | ⟨h1, h2⟩
    · left
      rw [hulen] at h1
      exact ⟨by omega, h2⟩
    · right
      have hdd : (text.drop (i + 1)).drop (readQuotedLoopL (text.drop (i + 1))).2
          = text.drop (i + 1 + (readQuotedLoopL (text.drop (i + 1))).2) :=
        List.drop_drop _ _ _
      refine ⟨by rw [← hdd]; exact h1, by omega, ?_⟩
      generalize hgen : (readQuotedLoopL (text.drop (i + 1))).1 = s at h1 h2
      have hq : (text.drop (i + 1))[s.length]? = some '"' := by
        rw [h1]
        rw [List.getElem?_append_right (Nat.le_refl _)]
        simp
      rw [List.getElem?_drop] at hq
      have hidx : i + 1 + (readQuotedLoopL (text.drop (i + 1))).2 - 1
          = i + 1 + s.length := by omega
      rw [atChar, hidx]
      simp [hq]

/-- C8 witness: an unterminated literal (the whole remainder is returned
with index equal to the buffer length). -/
theorem C8_scanner_total_dichotomy_witness :
    (read_quoted_string ['"', 'a', 'b'] 0).2 ≤ 3
    ∧ (((read_quoted_string ['"', 'a', 'b'] 0).2 = 3
        ∧ (read_quoted_string ['"', 'a', 'b'] 0).1 = ['a', 'b'])
      ∨ (['a', 'b'] =
          (read_quoted_string ['"', 'a', 'b'] 0).1
            ++ '"' :: List.drop (read_quoted_string ['"', 'a', 'b'] 0).2 ['"', 'a', 'b']
        ∧ (read_quoted_string ['"', 'a', 'b'] 0).2
            = 0 + 1 + (read_quoted_string ['"', 'a', 'b'] 0).1.length + 1
        ∧ atChar ['"', 'a', 'b'] ((read_quoted_string ['"', 'a', 'b'] 0).2 - 1) '"'
            = true)) :=
  C8_scanner_total_dichotomy ['"', 'a', 'b'] 0 (by decide)

/-- Number of leading whitespace characters of a buffer (the whitespace
skipping loops of `_parse_run_call`). -/
def skipSpacesCount : List Char → Nat
  | [] => 0
  | c :: rest => if isPySpace c = true then skipSpacesCount rest + 1 else 0

/-- Index reached from `i` by `while i < len(ln) and ln[i].isspace(): i += 1`. -/
def skipSpaces (ln : List Char) (i : Nat) : Nat :=
  i + skipSpacesCount (ln.drop i)

/-- The character of `ln` at index `i`, with an out-of-range placeholder
(never consulted in range-checked positions). -/
def chAt (ln : List Char) (i : Nat) : Char :=
  (ln[i]?).getD '\x00'

/-- ASCII fragment of the regex word-character class, for the whole-word
boundary of the `run` keyword pattern. -/
def isWordChar (c : Char) : Bool :=
  c.isAlphanum || c = '_'

/-- The keyword part of the pattern at position `j`: the word `run` in
bounds, case insensitively, preceded by a word boundary. -/
abbrev runKeywordAt (ln : List Char) (j : Nat) : Prop :=
  j + 3 ≤ ln.length
    ∧ (j = 0 ∨ isWordChar (chAt ln (j - 1)) = false)
    ∧ (chAt ln j).toLower = 'r'
    ∧ (chAt ln (j + 1)).toLower = 'u'
    ∧ (chAt ln (j + 2)).toLower = 'n'

/-- Attempt to match the pattern: word boundary, the letters r-u-n case
insensitively, any whitespace, an opening parenthesis, at position `j`.
Returns the index just past the parenthesis (the match end). -/
def matchRunAt (ln : List Char) (j : Nat) : Option Nat :=
  if runKeywordAt ln j then
    if atChar ln (skipSpaces ln (j + 3)) '(' = true then
      some (skipSpaces ln (j + 3) + 1)
    else none
  else none

/-- The scan of `re.search`: try successive start positions (the fuel
covers every position of the buffer). -/
def searchFromF : Nat → List Char → Nat → Option Nat
  | 0, _, _ => none
  | fuel + 1, ln, j =>
    match matchRunAt ln j with
    | some e => some e
    | none => searchFromF fuel ln (j + 1)

/-- `RUN_CALL_RE.search(line)`, reduced to its match end: leftmost position
at which the run-call pattern matches, reported as the index just past the
opening parenthesis. -/
def searchRunCall (ln : List Char) : Option Nat :=
  searchFromF (ln.length + 1) ln 0

/-- `_parse_run_call`: locate the keyword, skip whitespace, require a
quote, read the command literal, skip whitespace, require a comma, skip
whitespace, require a quote, read the argument literal, and unescape both;
any missing required token gives `none`. -/
def parse_run_call (ln : List Char) : Option (List Char × List Char) :=
  match searchRunCall ln with
  | none => none
  | some i0 =>
    let i1 := skipSpaces ln i0
    if atChar ln i1 '"' = true then
      let r1 := read_quoted_string ln i1
      let i3 := skipSpaces ln r1.2
      if atChar ln i3 ',' = true then
        let i4 := skipSpaces ln (i3 + 1)
        if atChar ln i4 '"' = true then
          let r2 := read_quoted_string ln i4
          some (unescape_ijm_string r1.1, unescape_ijm_string r2.1)
        else none
      else none
    else none

/-- Index of the first non-whitespace character after the keyword match
(where the command literal's opening quote is required). -/
def cmdQuoteIdx (ln : List Char) (i0 : Nat) : Nat :=
  skipSpaces ln i0

/-- Index just past the command literal. -/
def cmdEndIdx (ln : List Char) (i0 : Nat) : Nat :=
  (read_quoted_string ln (cmdQuoteIdx ln i0)).2

/-- Index where the comma between the two literals is required. -/
def commaIdx (ln : List Char) (i0 : Nat) : Nat :=
  skipSpaces ln (cmdEndIdx ln i0)

/-- Index where the argument literal's opening quote is required. -/
def argQuoteIdx (ln : List Char) (i0 : Nat) : Nat :=
  skipSpaces ln (commaIdx ln i0 + 1)

example :
    parse_run_call "run(\"Gaussian Blur...\", \"sigma=2 slice\");".toList
      = some ("Gaussian Blur...".toList, "sigma=2 slice".toList) := by decide

example : parse_run_call "var x = 5;".toList = none := by decide

example : parse_run_call "  rerun(\"a\", \"b\");".toList = none := by decide

example : parse_run_call "run(\"a\" \"b\");".toList = none := by decide

example : parse_run_call "RUN (\"a\", \"b\"".toList
      = some (['a'], ['b']) := by decide

/-- C4: the extractor always returns a pair or `none`, and it returns
`none` exactly when the whole-word `run` keyword followed by an opening
parenthesis is absent, or one of the required tokens (opening quote of the
command literal, comma, opening quote of the argument literal) is missing
at its required position. -/
theorem C4_extractor_no_match (ln : List Char) :
    parse_run_call ln = none ↔
      searchRunCall ln = none
      ∨ ∃ i0, searchRunCall ln = some i0
          ∧ (atChar ln (cmdQuoteIdx ln i0) '"' = false
            ∨ atChar ln (commaIdx ln i0) ',' = false
            ∨ atChar ln (argQuoteIdx ln i0) '"' = false) := by
  simp only [cmdQuoteIdx, cmdEndIdx, commaIdx, argQuoteIdx]
  cases hs : searchRunCall ln with
  | none => simp [parse_run_call, hs]
  | some i0 =>
    simp only [parse_run_call, hs]
    split_ifs with h1 h2 h3 <;> simp_all

/-- `line.rstrip("\n")`: strip trailing newline characters only. -/
def rstripNl (s : List Char) : List Char :=
  (s.reverse.dropWhile (fun c => c = '\n')).reverse

/-- The scan of Python's `str.splitlines` over the common terminators
(newline, carriage return, carriage return + newline), with the current
line accumulated in reverse.  The fuel only serves structural termination;
`splitlines` supplies the buffer length, which always suffices. -/
def splitlinesGoF : Nat → List Char → List Char → List (List Char)
  | 0, cur, _ => [cur.reverse]
  | _ + 1, cur, [] => [cur.reverse]
  | fuel + 1, cur, c :: rest =>
    if c = '\n' ∨ c = '\r' then
      let rest2 := if c = '\r' ∧ rest.head? = some '\n' then rest.tail else rest
      if rest2 = [] then [cur.reverse]
      else cur.reverse :: splitlinesGoF fuel [] rest2
    else
      splitlinesGoF fuel (c :: cur) rest

/-- Python's `str.splitlines` (restricted to the line terminators that can
occur here): the empty text has no lines; a trailing terminator does not
open a final empty line. -/
def splitlines (s : List Char) : List (List Char) :=
  if s = [] then [] else splitlinesGoF s.length [] s

example : splitlines [] = [] := by decide
example : splitlines "a\nb".toList = [['a'], ['b']] := by decide
example : splitlines "a\r\nb\n".toList = [['a'], ['b']] := by decide
example : splitlines "\n\n".toList = [[], []] := by decide

/-- Conversion of one source line, as performed by the loop body of
`convert_ijm_to_py`: comment lines are rewritten with the target marker,
recognized run calls are re-emitted as an `IJ.run` expression, non-blank
unrecognized lines are kept as unconverted comments, blank lines pass
through. -/
def convertLine (raw : List Char) : List Char :=
  let ln := rstripNl raw
  let stripped := ln.dropWhile isPySpace
  if listStartsWith ['/', '/'] stripped = true then
    '#' :: ' ' :: ((stripped.drop 2).dropWhile isPySpace ++ ['\n'])
  else
    match parse_run_call ln with
    | none =>
      if stripped = [] then ['\n']
      else "# [unconverted] ".toList ++ ln ++ ['\n']
    | some (cmd, args) =>
      "IJ.run(\"".toList ++ escape_py_string_fragment cmd ++ "\", ".toList
        ++ format_args_as_multiline (split_args_tokens args) (List.replicate 8 ' ')
        ++ [')', '\n']

/-- `convert_ijm_to_py`: the fixed prologue followed by the conversion of
each input line in order. -/
def convert_ijm_to_py (ijm_text : List Char) : List Char :=
  "#@String \n".toList ++ "from ij import IJ\n\n".toList
    ++ ((splitlines ijm_text).map convertLine).flatten

example : convertLine "// crop image".toList = "# crop image\n".toList := by decide

example : convertLine "var x = 5;".toList
    = "# [unconverted] var x = 5;\n".toList := by decide

example : convertLine "run(\"Close\", \"\");".toList
    = "IJ.run(\"Close\", \"\")\n".toList := by decide

example : convertLine "run(\"Gaussian Blur...\", \"sigma=2 slice\");".toList
    = "IJ.run(\"Gaussian Blur...\", (\n        \"sigma=2\\n \"\n        \"slice\"\n))\n".toList := by
  decide

example : convert_ijm_to_py [] = "#@String \nfrom ij import IJ\n\n".toList := by decide

/-- C7: a line whose stripped content starts with the two-character
comment marker is always emitted as a target-dialect comment line (marker
replaced, one leading space normalized) and never reaches the call
matcher, whatever the rest of its text contains; in particular the line
`// crop image` converts to exactly `# crop image`. -/
theorem C7_comment_priority :
    (∀ raw : List Char,
      listStartsWith ['/', '/'] ((rstripNl raw).dropWhile isPySpace) = true →
      convertLine raw =
        '#' :: ' '
          :: ((((rstripNl raw).dropWhile isPySpace).drop 2).dropWhile isPySpace
            ++ ['\n']))
    ∧ convertLine "// crop image".toList = "# crop image\n".toList := by
  constructor
  · intro raw h
    simp only [convertLine]
    rw [if_pos h]
  · decide

/-- C7 witness: a comment line that textually contains a well-formed run
call is still emitted as a comment, not matched as a call. -/
theorem C7_comment_priority_witness :
    convertLine "// run(\"Close\", \"\");".toList
      = "# run(\"Close\", \"\");\n".toList :=
  (C7_comment_priority.1 "// run(\"Close\", \"\");".toList (by decide)).trans
    (by decide)

/-- Number of newline characters of a text; every emitted line of the
converter ends with exactly one newline, so on outputs this is the line
count. -/
def countNL (s : List Char) : Nat :=
  s.count '\n'

/-- The condition of claim C1 as stated: a recognized run-call line whose
argument string tokenizes to more than one token. -/
def multiTokenRun (raw : List Char) : Bool :=
  let ln := rstripNl raw
  let stripped := ln.dropWhile isPySpace
  if listStartsWith ['/', '/'] stripped = true then false
  else
    match parse_run_call ln with
    | none => false
    | some p => decide (1 < (split_args_tokens p.2).length)

/-- The exact single-output-line condition: not a recognized run call, or
a recognized call whose decoded command has no newline and whose token
list has at most one entry, itself without a newline. -/
def tameLine (raw : List Char) : Bool :=
  let ln := rstripNl raw
  let stripped := ln.dropWhile isPySpace
  if listStartsWith ['/', '/'] stripped = true then true
  else
    match parse_run_call ln with
    | none => true
    | some p =>
      decide ('\n' ∉ p.1) && decide ((split_args_tokens p.2).length ≤ 1)
        && (split_args_tokens p.2).all (fun t => decide ('\n' ∉ t))

theorem mem_of_mem_rstripNl (raw : List Char) (x : Char)
    (h : x ∈ rstripNl raw) : x ∈ raw := by
  unfold rstripNl at h
  rw [List.mem_reverse] at h
  have h2 := (List.dropWhile_sublist _).subset h
  rwa [List.mem_reverse] at h2

theorem not_mem_escape_py (s : List Char) (h : '\n' ∉ s) :
    '\n' ∉ escape_py_string_fragment s := by
  unfold escape_py_string_fragment replaceAll
  apply not_mem_replaceAllF
  · apply not_mem_replaceAllF
    · exact h
    · decide
  · decide

theorem splitlinesGoF_no_nl (fuel : Nat) :
    ∀ (cur s : List Char), '\n' ∉ cur →
      ∀ l ∈ splitlinesGoF fuel cur s, '\n' ∉ l := by
  induction fuel with
  | zero =>
    intro cur s h l hl
    simp only [splitlinesGoF, List.mem_singleton] at hl
    subst hl
    simpa using h
  | succ fuel ih =>
    intro cur s h l hl
    cases s with
    | nil =>
      simp only [splitlinesGoF, List.mem_singleton] at hl
      subst hl
      simpa using h
    | cons c rest =>
      simp only [splitlinesGoF] at hl
      by_cases hbr : c = '\n' ∨ c = '\r'
      · rw [if_pos hbr] at hl
        by_cases hnil : (if c = '\r' ∧ rest.head? = some '\n' then rest.tail else rest) = []
        · rw [if_pos hnil] at hl
          rw [List.mem_singleton] at hl
          subst hl
          simpa using h
        · rw [if_neg hnil] at hl
          rcases List.mem_cons.1 hl with heq | hmem
          · subst heq
            simpa using h
          · exact ih [] _ (by simp) l hmem
      · rw [if_neg hbr] at hl
        have hc : c ≠ '\n' := fun he => hbr (Or.inl he)
        exact ih (c :: cur) rest (by
          intro hm
          rcases List.mem_cons.1 hm with he | hm2
          · exact hc he.symm
          · exact h hm2) l hl

theorem splitlines_no_nl (text l : List Char) (h : l ∈ splitlines text) :
    '\n' ∉ l := by
  unfold splitlines at h
  by_cases hnil : text = []
  · rw [if_pos hnil] at h
    simp at h
  · rw [if_neg hnil] at h
    exact splitlinesGoF_no_nl text.length [] text (by simp) l h

theorem countNL_cons_ne (c : Char) (s : List Char) (h : ¬ c = '\n') :
    countNL (c :: s) = countNL s := by
  simp [countNL, List.count_cons, h]

theorem countNL_append (a b : List Char) :
    countNL (a ++ b) = countNL a + countNL b :=
  List.count_append '\n' a b

theorem countNL_eq_zero (s : List Char) (h : '\n' ∉ s) : countNL s = 0 :=
  List.count_eq_zero.mpr h

/-- The single-token case of the re-emitter, shared by several proofs. -/
theorem format_args_single (t indent : List Char) :
    format_args_as_multiline [t] indent =
      '"' :: escape_py_string_fragment t ++ ['"'] := by
  simp only [format_args_as_multiline]
  rw [if_neg (by simp)]
  simp [formatLines]

/-- Newline count of one converted line: always at least one, and exactly
one when the line is tame (not a recognized call with several tokens or
with decoded newlines). -/
theorem convertLine_countNL (raw : List Char) (hnl : '\n' ∉ raw) :
    1 ≤ countNL (convertLine raw)
    ∧ (tameLine raw = true → countNL (convertLine raw) = 1) := by
  have hln : '\n' ∉ rstripNl raw := fun hm => hnl (mem_of_mem_rstripNl raw _ hm)
  simp only [convertLine, tameLine]
  by_cases hcom : listStartsWith ['/', '/'] ((rstripNl raw).dropWhile isPySpace) = true
  · rw [if_pos hcom, if_pos hcom]
    have hrest : '\n' ∉ (((rstripNl raw).dropWhile isPySpace).drop 2).dropWhile isPySpace := by
      intro hm
      apply hln
      have h1 := (List.dropWhile_sublist _).subset hm
      have h2 := (List.drop_sublist 2 _).subset h1
      exact (List.dropWhile_sublist _).subset h2
    have hc : countNL ('#' :: ' '
        :: ((((rstripNl raw).dropWhile isPySpace).drop 2).dropWhile isPySpace
          ++ ['\n'])) = 1 := by
      rw [countNL_cons_ne _ _ (by decide), countNL_cons_ne _ _ (by decide),
        countNL_append, countNL_eq_zero _ hrest]
      decide
    rw [hc]
    exact ⟨Nat.le_refl 1, fun _ => rfl⟩
  · rw [if_neg hcom, if_neg hcom]
    cases hp : parse_run_call (rstripNl raw) with
    | none =>
      simp only
      by_cases hstr : (rstripNl raw).dropWhile isPySpace = []
      · rw [if_pos hstr]
        exact ⟨by decide, fun _ => by decide⟩
      · rw [if_neg hstr]
        have hlnz : countNL (rstripNl raw) = 0 := countNL_eq_zero _ hln
        have hc : countNL ("# [unconverted] ".toList ++ rstripNl raw ++ ['\n']) = 1 := by
          rw [countNL_append, countNL_append, hlnz]
          decide
        rw [hc]
        exact ⟨Nat.le_refl 1, fun _ => rfl⟩
    | some p =>
      obtain ⟨cmd, args⟩ := p
      simp only
      rw [countNL_append, countNL_append, countNL_append, countNL_append]
      constructor
      · have : countNL [')', '\n'] = 1 := by decide
        omega
      · intro htame
        rw [Bool.and_eq_true, Bool.and_eq_true] at htame
        obtain ⟨⟨hcmd, hlen⟩, hall⟩ := htame
        rw [decide_eq_true_iff] at hcmd
        rw [decide_eq_true_iff] at hlen
        have hesc : countNL (escape_py_string_fragment cmd) = 0 :=
          countNL_eq_zero _ (not_mem_escape_py _ hcmd)
        have hfmt : countNL (format_args_as_multiline (split_args_tokens args)
            (List.replicate 8 ' ')) = 0 := by
          rcases htoks : split_args_tokens args with _ | ⟨t, rest⟩
          · simp only [format_args_as_multiline]
            decide
          · have hrest : rest = [] := by
              rw [htoks] at hlen
              simp at hlen
              exact hlen
            subst hrest
            rw [format_args_single]
            have hts : '\n' ∉ t := by
              rw [htoks] at hall
              rw [List.all_eq_true] at hall
              have := hall t (by simp)
              rwa [decide_eq_true_iff] at this
            rw [countNL_append,
              countNL_cons_ne '"' (escape_py_string_fragment t) (by decide),
              countNL_eq_zero _ (not_mem_escape_py _ hts)]
            decide
        rw [hesc, hfmt]
        decide

theorem convert_countNL_sum (ls : List (List Char)) (h : ∀ l ∈ ls, '\n' ∉ l) :
    ls.length ≤ (ls.map (fun l => countNL (convertLine l))).sum
    ∧ ((∀ l ∈ ls, tameLine l = true) →
        (ls.map (fun l => countNL (convertLine l))).sum = ls.length) := by
  induction ls with
  | nil => simp
  | cons a ls ih =>
    have ha := convertLine_countNL a (h a (by simp))
    have ihs := ih (fun l hl => h l (by simp [hl]))
    constructor
    · simp only [List.map_cons, List.sum_cons, List.length_cons]
      have h1 := ha.1
      have h2 := ihs.1
      omega
    · intro ht
      simp only [List.map_cons, List.sum_cons, List.length_cons]
      rw [ha.2 (ht a (by simp)), ihs.2 (fun l hl => ht l (by simp [hl]))]
      omega

/-- C1 counterexample: the claim's equality at input line count plus two
fails on the empty document, where its side condition (no recognized call
with more than one token) holds vacuously: the prologue alone spans three
output lines (marker line, import line, blank line), under both the
newline-count and the splitlines reading of the output line count. -/
theorem C1_line_count_counterexample :
    ((splitlines ([] : List Char)).all fun l => ! multiTokenRun l) = true
    ∧ countNL (convert_ijm_to_py []) ≠ (splitlines ([] : List Char)).length + 2
    ∧ (splitlines (convert_ijm_to_py [])).length
        ≠ (splitlines ([] : List Char)).length + 2 := by
  decide

/-- C1 amended: the output has at least the input line count plus three
newline-terminated lines, with equality exactly guaranteed when every
input line is tame: no recognized run call has more than one token, and no
decoded command or kept token carries a newline character. -/
theorem C1_line_count_amended (text : List Char) :
    (splitlines text).length + 3 ≤ countNL (convert_ijm_to_py text)
    ∧ ((∀ l ∈ splitlines text, tameLine l = true) →
        countNL (convert_ijm_to_py text) = (splitlines text).length + 3) := by
  have hsum := convert_countNL_sum (splitlines text)
    (fun l hl => splitlines_no_nl text l hl)
  have hflat : countNL ((splitlines text).map convertLine).flatten
      = ((splitlines text).map (fun l => countNL (convertLine l))).sum := by
    unfold countNL
    rw [List.count_flatten, List.map_map]
    rfl
  have h1 : countNL "#@String \n".toList = 1 := by decide
  have h2 : countNL "from ij import IJ\n\n".toList = 2 := by decide
  have hconv : countNL (convert_ijm_to_py text)
      = 3 + ((splitlines text).map (fun l => countNL (convertLine l))).sum := by
    unfold convert_ijm_to_py
    rw [countNL_append, countNL_append, h1, h2, hflat]
  constructor
  · rw [hconv]
    have := hsum.1
    omega
  · intro ht
    rw [hconv, hsum.2 ht]
    omega

/-- C1 witness: a two-line document (a one-token call and a comment)
produces exactly two plus three output lines. -/
theorem C1_line_count_amended_witness :
    countNL (convert_ijm_to_py "run(\"Close\", \"\");\n// done".toList)
      = (splitlines "run(\"Close\", \"\");\n// done".toList).length + 3 :=
  (C1_line_count_amended "run(\"Close\", \"\");\n// done".toList).2 (by decide)

theorem atChar_lt (ln : List Char) (i : Nat) (c : Char)
    (h : atChar ln i c = true) : i < ln.length := by
  have h' : ln[i]? = some c := by simpa [atChar] using h
  rcases List.getElem?_eq_some.1 h' with ⟨h1, -⟩
  exact h1

theorem atChar_ge (ln : List Char) (i : Nat) (c : Char)
    (h : ln.length ≤ i) : atChar ln i c = false := by
  simp [atChar, List.getElem?_eq_none h]

theorem getElem?_append_lt (L S : List Char) (i : Nat) (h : i < L.length) :
    (L ++ S)[i]? = L[i]? := by
  rw [List.getElem?_append]
  rw [if_pos h]

theorem atChar_append (L S : List Char) (i : Nat) (c : Char)
    (h : i < L.length) : atChar (L ++ S) i c = atChar L i c := by
  simp [atChar, getElem?_append_lt L S i h]

theorem chAt_append (L S : List Char) (i : Nat) (h : i < L.length) :
    chAt (L ++ S) i = chAt L i := by
  simp [chAt, getElem?_append_lt L S i h]

theorem drop_append_le (L S : List Char) (i : Nat) (h : i ≤ L.length) :
    (L ++ S).drop i = L.drop i ++ S := by
  rw [List.drop_append_eq_append_drop, Nat.sub_eq_zero_of_le h, List.drop_zero]

theorem skipSpacesCount_le (u : List Char) : skipSpacesCount u ≤ u.length := by
  induction u with
  | nil => simp [skipSpacesCount]
  | cons c rest ih =>
    rw [skipSpacesCount]
    split_ifs
    · simpa using ih
    · simp

theorem skipSpacesCount_append (u S : List Char)
    (h : skipSpacesCount u < u.length) :
    skipSpacesCount (u ++ S) = skipSpacesCount u := by
  induction u with
  | nil => simp at h
  | cons c rest ih =>
    rw [List.cons_append, skipSpacesCount, skipSpacesCount]
    rw [skipSpacesCount] at h
    split_ifs at h ⊢ with hsp
    · have hlt : skipSpacesCount rest < rest.length := by
        simp only [List.length_cons] at h
        omega
      rw [ih hlt]
    · rfl

theorem skipSpaces_le (ln : List Char) (i : Nat) (h : i ≤ ln.length) :
    skipSpaces ln i ≤ ln.length := by
  unfold skipSpaces
  have h1 := skipSpacesCount_le (ln.drop i)
  simp only [List.length_drop] at h1
  omega

theorem self_le_skipSpaces (ln : List Char) (i : Nat) : i ≤ skipSpaces ln i := by
  unfold skipSpaces
  omega

theorem skipSpaces_append (L S : List Char) (i : Nat)
    (h : skipSpaces L i < L.length) :
    skipSpaces (L ++ S) i = skipSpaces L i := by
  have hi : i ≤ L.length := le_trans (self_le_skipSpaces L i) (le_of_lt h)
  unfold skipSpaces at h ⊢
  rw [drop_append_le L S i hi]
  rw [skipSpacesCount_append]
  have h1 : (L.drop i).length = L.length - i := by simp
  omega

/-- If the whitespace scan of a buffer consumes everything, every entry is
whitespace. -/
theorem skipSpacesCount_all (u : List Char) (h : skipSpacesCount u = u.length) :
    ∀ c ∈ u, isPySpace c = true := by
  induction u with
  | nil => simp
  | cons c rest ih =>
    rw [skipSpacesCount] at h
    split_ifs at h with hsp
    · intro x hx
      rcases List.mem_cons.1 hx with he | hm
      · exact he ▸ hsp
      · exact ih (by simpa using h) x hm
    · simp at h

theorem isPySpace_toLower_ne (c : Char) (h : isPySpace c = true) :
    ¬ (c.toLower = 'r' ∨ c.toLower = 'u' ∨ c.toLower = 'n') := by
  have hc : ((((c = ' ' ∨ c = '\t') ∨ c = '\n') ∨ c = '\r') ∨ c = '\x0b')
      ∨ c = '\x0c' := by
    simpa [isPySpace] using h
  rcases hc with ((((h | h) | h) | h) | h) | h <;> subst h <;> decide

theorem getElem?_eq_some_chAt (ln : List Char) (i : Nat) (h : i < ln.length) :
    ln[i]? = some (chAt ln i) := by
  rw [List.getElem?_eq_getElem h]
  simp [chAt, List.getElem?_eq_getElem h]

/-- The keyword test only reads characters of the prefix, so appending a
suffix does not change it. -/
theorem runKeywordAt_append (L S : List Char) (j : Nat) (h3 : j + 3 ≤ L.length) :
    runKeywordAt (L ++ S) j ↔ runKeywordAt L j := by
  have hlen : j + 3 ≤ (L ++ S).length := by rw [List.length_append]; omega
  have hjm : j - 1 < L.length := by omega
  have hj : j < L.length := by omega
  have hj1 : j + 1 < L.length := by omega
  have hj2 : j + 2 < L.length := by omega
  unfold runKeywordAt
  rw [chAt_append L S (j - 1) hjm, chAt_append L S j hj,
    chAt_append L S (j + 1) hj1, chAt_append L S (j + 2) hj2]
  constructor
  · rintro ⟨-, h⟩
    exact ⟨h3, h⟩
  · rintro ⟨-, h⟩
    exact ⟨hlen, h⟩

/-- A successful keyword-and-parenthesis match in the prefix survives any
appended suffix, with the same match end. -/
theorem matchRunAt_append_some (L S : List Char) (j e : Nat)
    (h : matchRunAt L j = some e) : matchRunAt (L ++ S) j = some e := by
  unfold matchRunAt at h ⊢
  by_cases hg : runKeywordAt L j
  · rw [if_pos hg] at h
    by_cases hp : atChar L (skipSpaces L (j + 3)) '(' = true
    · rw [if_pos hp] at h
      have hk : skipSpaces L (j + 3) < L.length := atChar_lt _ _ _ hp
      rw [if_pos ((runKeywordAt_append L S j hg.1).mpr hg)]
      rw [skipSpaces_append L S _ hk]
      rw [if_pos (by rw [atChar_append L S _ '(' hk]; exact hp)]
      exact h
    · rw [if_neg hp] at h
      exact absurd h (by simp)
  · rw [if_neg hg] at h
    exact absurd h (by simp)

/-- A failed match at a position left of a successful one stays failed
after appending a suffix: the successful match pins every character the
failed attempt can reach inside the prefix. -/
theorem matchRunAt_append_none (L S : List Char) (j j' e : Nat) (hlt : j < j')
    (hnone : matchRunAt L j = none) (hm : matchRunAt L j' = some e) :
    matchRunAt (L ++ S) j = none := by
  have hg' : runKeywordAt L j' := by
    by_contra hng
    unfold matchRunAt at hm
    rw [if_neg hng] at hm
    simp at hm
  have h3 : j + 3 ≤ L.length := by
    have := hg'.1
    omega
  unfold matchRunAt at hnone ⊢
  by_cases hg : runKeywordAt L j
  · rw [if_pos hg] at hnone
    have hpf : atChar L (skipSpaces L (j + 3)) '(' = false := by
      by_cases hp : atChar L (skipSpaces L (j + 3)) '(' = true
      · rw [if_pos hp] at hnone
        simp at hnone
      · exact Bool.eq_false_iff.mpr hp
    rw [if_pos ((runKeywordAt_append L S j h3).mpr hg)]
    by_cases hk : skipSpaces L (j + 3) < L.length
    · rw [skipSpaces_append L S _ hk]
      rw [atChar_append L S _ '(' hk, hpf]
      simp
    · exfalso
      have hkle : skipSpaces L (j + 3) ≤ L.length := skipSpaces_le L (j + 3) h3
      have hkeq : skipSpaces L (j + 3) = L.length := by omega
      have hall : ∀ c ∈ L.drop (j + 3), isPySpace c = true := by
        apply skipSpacesCount_all
        unfold skipSpaces at hkeq
        have hdl : (L.drop (j + 3)).length = L.length - (j + 3) := by simp
        omega
      rcases Nat.lt_or_ge j' (j + 3) with hj' | hj'
      · have hcase : j' = j + 1 ∨ j' = j + 2 := by omega
        rcases hcase with he | he
        · subst he
          exact absurd (hg.2.2.2.1.symm.trans hg'.2.2.1) (by decide)
        · subst he
          exact absurd (hg.2.2.2.2.symm.trans hg'.2.2.1) (by decide)
      · have hj'lt : j' < L.length := by
          have := hg'.1
          omega
        have hmem : chAt L j' ∈ L.drop (j + 3) := by
          have hsome : (L.drop (j + 3))[j' - (j + 3)]? = some (chAt L j') := by
            rw [List.getElem?_drop]
            have harith : j + 3 + (j' - (j + 3)) = j' := by omega
            rw [harith]
            exact getElem?_eq_some_chAt L j' hj'lt
          rcases List.getElem?_eq_some.1 hsome with ⟨hb, hx⟩
          exact hx ▸ List.getElem_mem hb
        exact isPySpace_toLower_ne _ (hall _ hmem) (Or.inl hg'.2.2.1)
  · rw [if_neg (fun hga => hg ((runKeywordAt_append L S j h3).mp hga))]

theorem searchFromF_exists (L : List Char) :
    ∀ (f j e : Nat), searchFromF f L j = some e →
      ∃ j', j ≤ j' ∧ matchRunAt L j' = some e := by
  intro f
  induction f with
  | zero =>
    intro j e h
    simp [searchFromF] at h
  | succ f ih =>
    intro j e h
    rw [searchFromF] at h
    cases hm : matchRunAt L j with
    | some e' =>
      rw [hm] at h
      simp at h
      exact ⟨j, Nat.le_refl j, h ▸ hm⟩
    | none =>
      rw [hm] at h
      rcases ih (j + 1) e h with ⟨j', hj', hmj⟩
      exact ⟨j', by omega, hmj⟩

theorem searchFromF_append (L S : List Char) :
    ∀ (f1 j e f2 : Nat), f1 ≤ f2 → searchFromF f1 L j = some e →
      searchFromF f2 (L ++ S) j = some e := by
  intro f1
  induction f1 with
  | zero =>
    intro j e f2 _ h
    simp [searchFromF] at h
  | succ f1 ih =>
    intro j e f2 hle h
    obtain ⟨f2', rfl⟩ : ∃ f2', f2 = f2' + 1 := ⟨f2 - 1, by omega⟩
    rw [searchFromF] at h
    rw [searchFromF]
    cases hm : matchRunAt L j with
    | some e' =>
      rw [hm] at h
      simp at h
      rw [matchRunAt_append_some L S j e' hm]
      simp [h]
    | none =>
      rw [hm] at h
      rcases searchFromF_exists L f1 (j + 1) e h with ⟨j', hj', hmj⟩
      rw [matchRunAt_append_none L S j j' e (by omega) hm hmj]
      exact ih (j + 1) e f2' (by omega) h

/-- `re.search` of the run-call pattern is stable under appending a suffix
once it succeeds on the prefix. -/
theorem searchRunCall_append (L S : List Char) (e : Nat)
    (h : searchRunCall L = some e) : searchRunCall (L ++ S) = some e := by
  unfold searchRunCall at h ⊢
  exact searchFromF_append L S (L.length + 1) 0 e ((L ++ S).length + 1)
    (by rw [List.length_append]; omega) h

/-- A scan that found its closing quote inside the buffer is unchanged by
appending more text. -/
theorem readQuotedLoopL_append (S : List Char) : ∀ u : List Char,
    u = (readQuotedLoopL u).1 ++ '"' :: u.drop (readQuotedLoopL u).2 →
    readQuotedLoopL (u ++ S) = readQuotedLoopL u
  | [] => by
    intro h
    simp [readQuotedLoopL] at h
  | [c] => by
    intro h
    by_cases hc : c = '"'
    · subst hc
      cases S with
      | nil => simp
      | cons s S' => simp [readQuotedLoopL]
    · exfalso
      simp [readQuotedLoopL, hc] at h
  | c :: c2 :: rest => by
    intro h
    by_cases hbs : c = '\\'
    · subst hbs
      have e1 : readQuotedLoopL ('\\' :: c2 :: rest)
          = ('\\' :: c2 :: (readQuotedLoopL rest).1, (readQuotedLoopL rest).2 + 2) := by
        simp [readQuotedLoopL]
      have e3 : readQuotedLoopL ('\\' :: c2 :: (rest ++ S))
          = ('\\' :: c2 :: (readQuotedLoopL (rest ++ S)).1,
              (readQuotedLoopL (rest ++ S)).2 + 2) := by
        simp [readQuotedLoopL]
      rw [e1] at h
      have hd : ('\\' :: c2 :: rest).drop ((readQuotedLoopL rest).2 + 2)
          = rest.drop (readQuotedLoopL rest).2 := by
        rw [show (readQuotedLoopL rest).2 + 2 = ((readQuotedLoopL rest).2 + 1) + 1
            from rfl,
          List.drop_succ_cons, List.drop_succ_cons]
      rw [hd] at h
      have hrest : rest = (readQuotedLoopL rest).1
          ++ '"' :: rest.drop (readQuotedLoopL rest).2 := by
        simpa using h
      rw [show ('\\' :: c2 :: rest) ++ S = '\\' :: c2 :: (rest ++ S) from rfl,
        e3, readQuotedLoopL_append S rest hrest, e1]
    · by_cases hq : c = '"'
      · subst hq
        simp [readQuotedLoopL]
      · have e1 : readQuotedLoopL (c :: c2 :: rest)
            = (c :: (readQuotedLoopL (c2 :: rest)).1,
                (readQuotedLoopL (c2 :: rest)).2 + 1) := by
          simp [readQuotedLoopL, hbs, hq]
        have e3 : readQuotedLoopL (c :: c2 :: (rest ++ S))
            = (c :: (readQuotedLoopL (c2 :: (rest ++ S))).1,
                (readQuotedLoopL (c2 :: (rest ++ S))).2 + 1) := by
          simp [readQuotedLoopL, hbs, hq]
        rw [e1] at h
        have hd : (c :: c2 :: rest).drop ((readQuotedLoopL (c2 :: rest)).2 + 1)
            = (c2 :: rest).drop (readQuotedLoopL (c2 :: rest)).2 :=
          List.drop_succ_cons
        rw [hd] at h
        have hsub : c2 :: rest = (readQuotedLoopL (c2 :: rest)).1
            ++ '"' :: (c2 :: rest).drop (readQuotedLoopL (c2 :: rest)).2 := by
          simpa using h
        rw [show (c :: c2 :: rest) ++ S = c :: c2 :: (rest ++ S) from rfl,
          e3,
          show c2 :: (rest ++ S) = (c2 :: rest) ++ S from rfl,
          readQuotedLoopL_append S (c2 :: rest) hsub, e1]

/-- The string scanner is unchanged by appending text after a literal
whose closing quote lies inside the prefix. -/
theorem read_quoted_string_append (L S : List Char) (i : Nat)
    (hi : i + 1 ≤ L.length)
    (h : L.drop (i + 1) = (read_quoted_string L i).1
        ++ '"' :: L.drop (read_quoted_string L i).2) :
    read_quoted_string (L ++ S) i = read_quoted_string L i := by
  simp only [read_quoted_string] at h ⊢
  rw [drop_append_le L S (i + 1) hi]
  have hterm : L.drop (i + 1) = (readQuotedLoopL (L.drop (i + 1))).1
      ++ '"' :: (L.drop (i + 1)).drop (readQuotedLoopL (L.drop (i + 1))).2 := by
    rw [List.drop_drop]
    exact h
  rw [readQuotedLoopL_append S (L.drop (i + 1)) hterm]

theorem skipSpaces_length (L : List Char) : skipSpaces L L.length = L.length := by
  unfold skipSpaces
  rw [List.drop_length]
  rfl

/-- The second literal of a recognized call has its closing quote inside
the line (rather than being silently cut off by the end of the line). -/
def secondLiteralClosed (L : List Char) : Bool :=
  match searchRunCall L with
  | none => false
  | some i0 =>
    let i4 := argQuoteIdx L i0
    let r := read_quoted_string L i4
    L.drop (i4 + 1) == r.1 ++ '"' :: L.drop r.2

/-- C10: a successful extraction whose second literal is closed inside the
line depends only on that prefix: appending any suffix (in particular, no
closing parenthesis or semicolon is required) leaves the extraction
successful with the same command and argument pair. -/
theorem C10_extractor_prefix_stable (L S : List Char) (p : List Char × List Char)
    (hp : parse_run_call L = some p) (hcl : secondLiteralClosed L = true) :
    parse_run_call (L ++ S) = some p := by
  cases hs : searchRunCall L with
  | none =>
    simp only [parse_run_call, hs] at hp
    exact absurd hp (by simp)
  | some i0 =>
    have hp' := hp
    simp only [parse_run_call, hs] at hp'
    split_ifs at hp' with h1 h2 h3
    · have hi1 : skipSpaces L i0 < L.length := atChar_lt _ _ _ h1
      have hi3 : skipSpaces L (read_quoted_string L (skipSpaces L i0)).2 < L.length :=
        atChar_lt _ _ _ h2
      have hi4 : skipSpaces L
          (skipSpaces L (read_quoted_string L (skipSpaces L i0)).2 + 1) < L.length :=
        atChar_lt _ _ _ h3
      have hspec := readQuotedLoopL_spec (L.drop (skipSpaces L i0 + 1))
      have hterm1 : L.drop (skipSpaces L i0 + 1)
          = (read_quoted_string L (skipSpaces L i0)).1
            ++ '"' :: L.drop (read_quoted_string L (skipSpaces L i0)).2 := by
        rcases hspec.2 with ⟨ha, hb⟩ | ⟨ha, hb⟩
        · exfalso
          have hlen : (L.drop (skipSpaces L i0 + 1)).length
              = L.length - (skipSpaces L i0 + 1) := by simp
          have hr2 : (read_quoted_string L (skipSpaces L i0)).2 = L.length := by
            simp only [read_quoted_string]
            omega
          rw [hr2, skipSpaces_length] at h2
          rw [atChar_ge L L.length ',' (Nat.le_refl _)] at h2
          exact absurd h2 (by simp)
        · rw [List.drop_drop] at ha
          simp only [read_quoted_string]
          exact ha
      have hcl' : L.drop (skipSpaces L
            (skipSpaces L (read_quoted_string L (skipSpaces L i0)).2 + 1) + 1)
          = (read_quoted_string L (skipSpaces L
              (skipSpaces L (read_quoted_string L (skipSpaces L i0)).2 + 1))).1
            ++ '"' :: L.drop (read_quoted_string L (skipSpaces L
              (skipSpaces L (read_quoted_string L (skipSpaces L i0)).2 + 1))).2 := by
        simp only [secondLiteralClosed, hs, argQuoteIdx, commaIdx, cmdEndIdx,
          cmdQuoteIdx] at hcl
        simpa using hcl
      simp only [parse_run_call, searchRunCall_append L S i0 hs]
      rw [skipSpaces_append L S i0 hi1]
      rw [atChar_append L S (skipSpaces L i0) '"' hi1]
      rw [if_pos h1]
      rw [read_quoted_string_append L S (skipSpaces L i0) (by omega) hterm1]
      rw [skipSpaces_append L S (read_quoted_string L (skipSpaces L i0)).2 hi3]
      rw [atChar_append L S (skipSpaces L (read_quoted_string L (skipSpaces L i0)).2)
        ',' hi3]
      rw [if_pos h2]
      rw [skipSpaces_append L S
        (skipSpaces L (read_quoted_string L (skipSpaces L i0)).2 + 1) hi4]
      rw [atChar_append L S (skipSpaces L
        (skipSpaces L (read_quoted_string L (skipSpaces L i0)).2 + 1)) '"' hi4]
      rw [if_pos h3]
      rw [read_quoted_string_append L S (skipSpaces L
        (skipSpaces L (read_quoted_string L (skipSpaces L i0)).2 + 1)) (by omega) hcl']
      exact hp'

/-- C10 witness: appending a semicolon-terminated tail to a line whose
extraction succeeded with a closed second literal returns the same pair. -/
theorem C10_extractor_prefix_stable_witness :
    parse_run_call ("run(\"Close\", \"\")".toList ++ ";".toList)
      = some ("Close".toList, ([] : List Char)) :=
  C10_extractor_prefix_stable "run(\"Close\", \"\")".toList ";".toList
    ("Close".toList, ([] : List Char)) (by decide) (by decide)

end Ijm2Py
